import Mathlib

/-!
Verification of the `autotranslate` command-line utility (`src/index.ts`).

The program reads a JSON or INI file, sends every human-readable string
value to a translation service, and writes a translated copy.  This file
gives a shallow embedding of the program's pure core — the INI line
classifier (`parseIniWithComments`), the two-pass INI reconstructor
(`processIniFile` and the emit loop of `main`), the JSON value walker
(`translateJsonValue`), the translation client (`translateText`), and the
orchestration of `main` — and proves or refutes the frozen claims about it.

Modelling conventions:
* JavaScript strings are `List Char`; `String.prototype.trim` is `trim`,
  `content.split("\n")` is `List.splitOn '\n'`.
* JavaScript objects used as dictionaries (`TranslatedContent`) are
  functions to `Option`, with assignment as pointwise update.
* `async` functions that can reject are `Except Unit` valued; the
  translation service is an oracle `Tr := List Char → Except Unit (List Char)`
  (`Except.error` models a rejected `axios.post`, i.e. transport failure or
  non-2xx status, which `translateText` rethrows).
* Reading the property of an `undefined` object (a `TypeError`) is also
  modelled as `Except.error`, since `main` catches it the same way.
* A JavaScript `undefined` read from a defined object is `Option.none`;
  string interpolation of `undefined` produces the text `"undefined"`.
-/

/-- JavaScript whitespace test used by `String.prototype.trim` (ASCII part;
the lines manipulated by the program contain no exotic whitespace). -/
def isWs (c : Char) : Bool :=
  c = ' ' || c = '\t' || c = '\n' || c = '\r' || c = '\x0b' || c = '\x0c'

/-- Model of `String.prototype.trim`: drop leading and trailing whitespace. -/
def trim (l : List Char) : List Char :=
  ((l.dropWhile isWs).reverse.dropWhile isWs).reverse

/-- `content.split("\n")` from `parseIniWithComments`. -/
def splitLines (content : List Char) : List (List Char) :=
  content.splitOn '\n'

/-- The `type` field of the `IniLine` interface:
`"section" | "key" | "comment" | "empty"`. -/
inductive LineType where
  | sec
  | key
  | comment
  | empty
deriving DecidableEq

/-- The `IniLine` interface of `src/index.ts`: one classified line.
`key`/`value` are `Option` because the interface marks them optional. -/
structure IniLine where
  type : LineType
  content : List Char
  key : Option (List Char) := none
  value : Option (List Char) := none
deriving DecidableEq

/-- Full-match test of the regex `^\[(.*?)\]$` on an (already trimmed)
line: it matches exactly when the line starts with `[`, ends with `]`,
and has length at least 2. -/
def isSectionLine (t : List Char) : Bool :=
  match t with
  | c :: rest => c = '[' && !rest.isEmpty && rest.getLast? == some ']'
  | [] => false

/-- Match of `^([^=]+)=(.*)$` on a trimmed line: split at the first `=`,
requiring a nonempty part before it.  Returns the two capture groups. -/
def keyValueSplit (t : List Char) : Option (List Char × List Char) :=
  match t.dropWhile (fun c => c ≠ '=') with
  | '=' :: v =>
    match t.takeWhile (fun c => c ≠ '=') with
    | [] => none
    | k => some (k, v)
  | _ => none

/-- The body of the classification loop of `parseIniWithComments`,
applied to a single raw line. -/
def classifyLine (l : List Char) : IniLine :=
  let t := trim l
  if t = [] then ⟨.empty, l, none, none⟩
  else if t.head? = some ';' ∨ t.head? = some '#' then ⟨.comment, l, none, none⟩
  else if isSectionLine t then ⟨.sec, l, none, none⟩
  else
    match keyValueSplit t with
    | some (k, v) => ⟨.key, l, some (trim k), some (trim v)⟩
    | none => ⟨.key, l, none, none⟩

/-- `parseIniWithComments`: split the file content on newlines and
classify each line. -/
def parseIniWithComments (content : List Char) : List IniLine :=
  (splitLines content).map classifyLine

/-- First-match capture of the regex `/\[(.*?)\]/` used by both passes on
`line.content`: the text between the first `[` and the first `]` after it;
`none` when the regex does not match. -/
def sectionName : List Char → Option (List Char)
  | [] => none
  | c :: rest =>
    if c = '[' then
      match rest.dropWhile (fun d => d ≠ ']') with
      | [] => none
      | _ :: _ => some (rest.takeWhile (fun d => d ≠ ']'))
    else sectionName rest

/-- Inner dictionary of the `TranslatedContent` interface: key → value. -/
def KeyMap := List Char → Option (List Char)

/-- The `TranslatedContent` interface: section name → key → value. -/
def TranslatedContent := List Char → Option KeyMap

/-- The empty object `{}`. -/
def emptyKM : KeyMap := fun _ => none

/-- The empty `TranslatedContent` object `{}`. -/
def emptyTC : TranslatedContent := fun _ => none

/-- `table[s] = m` (JS property assignment on the outer object). -/
def setSection (t : TranslatedContent) (s : List Char) (m : KeyMap) :
    TranslatedContent :=
  fun s' => if s' = s then some m else t s'

/-- `table[s][k] = v`.  Returns `none` (a `TypeError`) when `table[s]` is
`undefined`. -/
def setKV (t : TranslatedContent) (s k v : List Char) :
    Option TranslatedContent :=
  match t s with
  | none => none
  | some m => some (setSection t s (fun k' => if k' = k then some v else m k'))

/-- `table[s]?.[k]` read as one step: the stored value, if any. -/
def lookupKV (t : TranslatedContent) (s k : List Char) : Option (List Char) :=
  match t s with
  | none => none
  | some m => m k

/-- The translation service oracle: the behaviour of one `translateText`
call for a given input (`Except.error` = the call rejects). -/
def Tr := List Char → Except Unit (List Char)

/-- The string `"default"`. -/
def defaultS : List Char := "default".toList

/-- The synthesized header line `"[default]"`. -/
def defaultHeader : List Char := "[default]".toList

/-- The rendering of JavaScript `undefined` by template interpolation. -/
def undefinedS : List Char := "undefined".toList

/-- State of pass 1 (`processIniFile`): the table under construction and
the mutable `currentSection` (initially `""`). -/
structure Pass1State where
  table : TranslatedContent
  currentSection : List Char

/-- One iteration of the `for` loop of `processIniFile` (pass 1). -/
def pass1Step (tr : Tr) (st : Pass1State) (line : IniLine) :
    Except Unit Pass1State :=
  match line.type with
  | .sec =>
    match sectionName line.content with
    | some s => .ok ⟨setSection st.table s emptyKM, s⟩
    | none => .ok st
  | .key =>
    match line.key, line.value with
    | some k, some v =>
      if k = [] ∨ v = [] then .ok st
      else
        let cs := if st.currentSection = [] then defaultS else st.currentSection
        let tbl := if st.currentSection = [] then setSection st.table defaultS emptyKM
                   else st.table
        if trim v = [] then
          match setKV tbl cs k v with
          | some tbl' => .ok ⟨tbl', cs⟩
          | none => .error ()
        else
          match tr v with
          | .ok w =>
            match setKV tbl cs k w with
            | some tbl' => .ok ⟨tbl', cs⟩
            | none => .error ()
          | .error e => .error e
    | _, _ => .ok st
  | _ => .ok st

/-- The whole pass-1 loop over a list of classified lines. -/
def pass1Go (tr : Tr) : Pass1State → List IniLine → Except Unit Pass1State
  | st, [] => .ok st
  | st, l :: ls =>
    match pass1Step tr st l with
    | .ok st' => pass1Go tr st' ls
    | .error e => .error e

/-- `processIniFile` (minus file reading): parse the content and build the
`TranslatedContent` table. -/
def processIniFile (tr : Tr) (content : List Char) : Except Unit Pass1State :=
  pass1Go tr ⟨emptyTC, []⟩ (parseIniWithComments content)

/-- State of the emit loop of `main` (pass 2): the output lines produced
so far and this pass's own `currentSection`. -/
structure Pass2State where
  out : List (List Char)
  currentSection : List Char

/-- One iteration of the emit loop of `main` (pass 2).  Each appended list
element is one output line (the source appends `line + "\n"` to
`outputContent` for each). -/
def pass2Step (t : TranslatedContent) (st : Pass2State) (line : IniLine) :
    Except Unit Pass2State :=
  match line.type with
  | .sec =>
    match sectionName line.content with
    | some s => .ok ⟨st.out ++ [line.content], s⟩
    | none => .ok st
  | .key =>
    match line.key, line.value with
    | some k, some v =>
      if k = [] ∨ v = [] then .ok ⟨st.out ++ [line.content], st.currentSection⟩
      else
        let hdr := if st.currentSection = [] then [defaultHeader] else []
        let cs := if st.currentSection = [] then defaultS else st.currentSection
        match t cs with
        | none => .error ()
        | some m =>
          let rendered := match m k with
            | some w => w
            | none => undefinedS
          .ok ⟨st.out ++ hdr ++ [k ++ '=' :: rendered], cs⟩
    | _, _ => .ok ⟨st.out ++ [line.content], st.currentSection⟩
  | _ => .ok ⟨st.out ++ [line.content], st.currentSection⟩

/-- The whole pass-2 loop. -/
def pass2Go (t : TranslatedContent) :
    Pass2State → List IniLine → Except Unit Pass2State
  | st, [] => .ok st
  | st, l :: ls =>
    match pass2Step t st l with
    | .ok st' => pass2Go t st' ls
    | .error e => .error e

/-- The INI branch of `main`: build the table (pass 1), then re-emit the
classified lines (pass 2).  Produces the list of output lines. -/
def iniRun (tr : Tr) (content : List Char) : Except Unit (List (List Char)) :=
  let lines := parseIniWithComments content
  match pass1Go tr ⟨emptyTC, []⟩ lines with
  | .error e => .error e
  | .ok stF =>
    match pass2Go stF.table ⟨[], []⟩ lines with
    | .error e => .error e
    | .ok st2 => .ok st2.out

/-- The payload `response.data` of a successful `axios.post` to
`/translate`: the `translatedText` field may be absent (`none`). -/
structure TransResponse where
  translatedText : Option (List Char)
deriving DecidableEq

/-- `translateText` as a function of the outcome of its `axios.post` call
(axios rejects on transport failure and on non-2xx status; both arrive as
`Except.error`).  The `catch` block rethrows, and the success path returns
`response.data.translatedText` — which is `undefined` (`none`) when the
field is missing. -/
def translateText (post : Except Unit TransResponse) :
    Except Unit (Option (List Char)) :=
  match post with
  | .ok r => .ok r.translatedText
  | .error e => .error e

/-- A parsed JSON value, as discriminated by `translateJsonValue`'s
runtime type tests (string / array / non-null object / everything else).
Object fields are kept in insertion order, as `Object.entries` yields
them. -/
inductive Json where
  | str (s : List Char)
  | num (n : Int)
  | bool (b : Bool)
  | null
  | arr (elems : List Json)
  | obj (fields : List (List Char × Json))

mutual

/-- `translateJsonValue`: translate every string leaf whose trimmed form
is nonempty; arrays keep their element order (`Promise.all` preserves
index order); objects are rebuilt field by field in `Object.entries`
order; all other values are returned unchanged. -/
def translateJsonValue (tr : Tr) : Json → Except Unit Json
  | .str s => if trim s = [] then .ok (.str s) else
      match tr s with
      | .ok w => .ok (.str w)
      | .error e => .error e
  | .num n => .ok (.num n)
  | .bool b => .ok (.bool b)
  | .null => .ok .null
  | .arr xs =>
    match tjArr tr xs with
    | .ok ys => .ok (.arr ys)
    | .error e => .error e
  | .obj fs =>
    match tjObj tr fs with
    | .ok gs => .ok (.obj gs)
    | .error e => .error e

/-- Elementwise translation of an array (`value.map` + `Promise.all`). -/
def tjArr (tr : Tr) : List Json → Except Unit (List Json)
  | [] => .ok []
  | x :: xs =>
    match translateJsonValue tr x with
    | .ok y =>
      match tjArr tr xs with
      | .ok ys => .ok (y :: ys)
      | .error e => .error e
    | .error e => .error e

/-- Fieldwise translation of an object (the `for` loop over
`Object.entries`): keys are kept, values are translated recursively. -/
def tjObj (tr : Tr) : List (List Char × Json) → Except Unit (List (List Char × Json))
  | [] => .ok []
  | (k, v) :: fs =>
    match translateJsonValue tr v with
    | .ok w =>
      match tjObj tr fs with
      | .ok gs => .ok ((k, w) :: gs)
      | .error e => .error e
    | .error e => .error e

end

mutual

/-- Structural equality up to string-leaf values: same constructor, equal
non-string leaves, equal array lengths and element order, equal object
key sequences. -/
def sameShape : Json → Json → Bool
  | .str _, .str _ => true
  | .num a, .num b => a == b
  | .bool a, .bool b => a == b
  | .null, .null => true
  | .arr xs, .arr ys => sameShapeArr xs ys
  | .obj fs, .obj gs => sameShapeObj fs gs
  | _, _ => false

def sameShapeArr : List Json → List Json → Bool
  | [], [] => true
  | x :: xs, y :: ys => sameShape x y && sameShapeArr xs ys
  | _, _ => false

def sameShapeObj : List (List Char × Json) → List (List Char × Json) → Bool
  | [], [] => true
  | (k, v) :: fs, (k', v') :: gs => k == k' && sameShape v v' && sameShapeObj fs gs
  | _, _ => false

end

/-- The run environment of one `main` invocation: CLI flags, the
filesystem and service facts the run observes, and the oracles for the
external collaborators (`JSON.parse`, the translation service). -/
structure Env where
  fileExists : Bool
  jsonFlag : Bool
  iniFlag : Bool
  probeOk : Bool
  fileContent : List Char
  jsonParse : Option Json
  tr : Tr

/-- The distinct failure exits of `main`, in source order: missing file,
missing format flag, failed probe, and any error caught by the `try`
around the processing pipelines. -/
inductive MainErr where
  | fileNotFound
  | ambiguousFormat
  | serviceUnreachable
  | processingError
deriving DecidableEq

/-- What `fs.writeFileSync` receives: the translated JSON value (later
stringified) or the INI output lines. -/
inductive Written where
  | json (j : Json)
  | ini (lines : List (List Char))

/-- `main`: the exit code, the error reported (if any), and the output
file written (if any). -/
def runMain (env : Env) : Nat × Option MainErr × Option Written :=
  if env.fileExists = false then (1, some .fileNotFound, none)
  else if env.jsonFlag = false ∧ env.iniFlag = false then
    (1, some .ambiguousFormat, none)
  else if env.probeOk = false then (1, some .serviceUnreachable, none)
  else if env.jsonFlag then
    match env.jsonParse with
    | none => (1, some .processingError, none)
    | some j =>
      match translateJsonValue env.tr j with
      | .error _ => (1, some .processingError, none)
      | .ok j' => (0, none, some (.json j'))
  else
    match iniRun env.tr env.fileContent with
    | .error _ => (1, some .processingError, none)
    | .ok outLines => (0, none, some (.ini outLines))


/-- How one classified line updates `currentSection` — the derivation both
passes share (section header with a regex match sets it; a key line with
nonempty key and value sets it to `"default"` when it is still empty). -/
def csStep (cs : List Char) (line : IniLine) : List Char :=
  match line.type with
  | .sec =>
    match sectionName line.content with
    | some s => s
    | none => cs
  | .key =>
    match line.key, line.value with
    | some k, some v =>
      if k = [] ∨ v = [] then cs
      else if cs = [] then defaultS else cs
    | _, _ => cs
  | _ => cs

/-- `currentSection` after a sequence of classified lines. -/
def csAfter (cs : List Char) (lines : List IniLine) : List Char :=
  lines.foldl csStep cs

/-- The sequence of section "openings" performed while processing the
lines from state `cs`: every regex-matched header name (pass 1 resets
`table[name]` to `{}` there), plus `"default"` each time it is implicitly
opened. -/
def openingsGo (cs : List Char) : List IniLine → List (List Char)
  | [] => []
  | l :: ls =>
    match l.type with
    | .sec =>
      match sectionName l.content with
      | some s => s :: openingsGo s ls
      | none => openingsGo cs ls
    | .key =>
      match l.key, l.value with
      | some k, some v =>
        if k = [] ∨ v = [] then openingsGo cs ls
        else if cs = [] then defaultS :: openingsGo defaultS ls
        else openingsGo cs ls
      | _, _ => openingsGo cs ls
    | _ => openingsGo cs ls

/-- Whether the emit pass starting with current section `cs` ever
synthesizes a `[default]` header while processing the lines. -/
def synthD (cs : List Char) : List IniLine → Bool
  | [] => false
  | l :: ls =>
    match l.type with
    | .sec =>
      match sectionName l.content with
      | some s => synthD s ls
      | none => synthD cs ls
    | .key =>
      match l.key, l.value with
      | some k, some v =>
        if k = [] ∨ v = [] then synthD cs ls
        else if cs = [] then true else synthD cs ls
      | _, _ => synthD cs ls
    | _ => synthD cs ls

/-- A section has an entry in the table. -/
def opened (t : TranslatedContent) (s : List Char) : Prop := (t s).isSome


/-- The section openings performed by one classified line from current
section `cs` (pass 1 resets `table[name]` to `{}` at exactly these). -/
def openEvt (cs : List Char) (l : IniLine) : List (List Char) :=
  match l.type with
  | .sec =>
    match sectionName l.content with
    | some s => [s]
    | none => []
  | .key =>
    match l.key, l.value with
    | some k, some v =>
      if k = [] ∨ v = [] then [] else if cs = [] then [defaultS] else []
    | _, _ => []
  | _ => []

/-- Whether one classified line triggers the `[default]` synthesis. -/
def synthEvt (cs : List Char) (l : IniLine) : Bool :=
  match l.type with
  | .key =>
    match l.key, l.value with
    | some k, some v =>
      if k = [] ∨ v = [] then false else decide (cs = [])
    | _, _ => false
  | _ => false


/-! ### Concrete instances used by witnesses and counterexamples -/

/-- A concrete translation oracle: appends `!` to the input. -/
def trEx : Tr := fun v => Except.ok (v ++ ['!'])

/-- INI content whose `[s]` header appears twice. -/
def cexReopen : List Char := "[s]\na=x\n[s]\nb=y".toList

/-- INI content with an empty-name section header between two key lines. -/
def cexEmptyName : List Char := "a=x\n[]\nb=y".toList

/-- INI content with a duplicated key and a later re-opened section. -/
def cexDupKey : List Char := "[s]\na=x\na=y\n[s]\nb=z".toList


/-! ### Basic facts about the classifier and the section regexes -/

theorem isWs_ne_lbracket {c : Char} (h : isWs c = true) : c ≠ '[' := by
  intro hc
  subst hc
  exact absurd h (by decide)

theorem trim_decomp (l : List Char) :
    ∃ pre suf, (∀ c ∈ pre, isWs c = true) ∧ l = pre ++ (trim l ++ suf) := by
  refine ⟨l.takeWhile isWs, ((l.dropWhile isWs).reverse.takeWhile isWs).reverse,
    fun c hc => List.mem_takeWhile_imp hc, ?_⟩
  have h1 : trim l ++ ((l.dropWhile isWs).reverse.takeWhile isWs).reverse
      = l.dropWhile isWs := by
    unfold trim
    rw [← List.reverse_append, List.takeWhile_append_dropWhile, List.reverse_reverse]
  rw [h1, List.takeWhile_append_dropWhile]

theorem sectionName_cons {c : Char} (l : List Char) (h : c ≠ '[') :
    sectionName (c :: l) = sectionName l := by
  simp [sectionName, h]

theorem sectionName_append (pre l : List Char) (h : ∀ c ∈ pre, c ≠ '[') :
    sectionName (pre ++ l) = sectionName l := by
  induction pre with
  | nil => rfl
  | cons c cs ih =>
    rw [List.cons_append, sectionName_cons _ (h c (by simp)),
      ih (fun d hd => h d (by simp [hd]))]

theorem sectionName_isSome_of_mem {rest : List Char} (h : ']' ∈ rest) :
    (sectionName ('[' :: rest)).isSome = true := by
  have hne : rest.dropWhile (fun d => d ≠ ']') ≠ [] := by
    rw [Ne, List.dropWhile_eq_nil_iff]
    push_neg
    exact ⟨']', h, by simp⟩
  simp only [sectionName, if_pos rfl]
  cases hd : rest.dropWhile (fun d => d ≠ ']') with
  | nil => exact absurd hd hne
  | cons a as => simp

theorem classifyLine_content (l : List Char) : (classifyLine l).content = l := by
  simp only [classifyLine]
  split
  · rfl
  · split
    · rfl
    · split
      · rfl
      · split <;> rfl

theorem classifyLine_sec {l : List Char} (h : (classifyLine l).type = .sec) :
    isSectionLine (trim l) = true := by
  simp only [classifyLine] at h
  by_cases h1 : trim l = []
  · simp [h1] at h
  · by_cases h2 : (trim l).head? = some ';' ∨ (trim l).head? = some '#'
    · simp [h1, h2] at h
    · by_cases h3 : isSectionLine (trim l)
      · exact h3
      · rcases hkv : keyValueSplit (trim l) with _ | ⟨k, v⟩ <;>
          simp [h1, h2, h3, hkv] at h

theorem sectionName_isSome_of_sec {l : List Char}
    (h : (classifyLine l).type = .sec) : (sectionName l).isSome = true := by
  have hs := classifyLine_sec h
  obtain ⟨pre, suf, hpre, hl⟩ := trim_decomp l
  cases ht : trim l with
  | nil => rw [ht] at hs; exact absurd hs (by decide)
  | cons c rest =>
    rw [ht] at hs
    simp only [isSectionLine, Bool.and_eq_true, decide_eq_true_eq,
      beq_iff_eq] at hs
    obtain ⟨⟨hc, _⟩, hlast⟩ := hs
    subst hc
    have hmem : ']' ∈ rest := by
      obtain ⟨hne, heq⟩ := List.mem_getLast?_eq_getLast
        (show ']' ∈ rest.getLast? from hlast)
      rw [heq]
      exact List.getLast_mem _
    conv_lhs => rw [hl]
    rw [sectionName_append pre _ (fun c hc => isWs_ne_lbracket (hpre c hc)), ht,
      List.cons_append]
    exact sectionName_isSome_of_mem (List.mem_append_left _ hmem)

/-! ### The shared "current section" derivation of the two passes -/
theorem csAfter_nil (cs : List Char) : csAfter cs [] = cs := rfl

theorem csAfter_cons (cs : List Char) (l : IniLine) (ls : List IniLine) :
    csAfter cs (l :: ls) = csAfter (csStep cs l) ls := rfl

theorem pass1Step_cs {tr : Tr} {st : Pass1State} {l : IniLine}
    {st' : Pass1State} (h : pass1Step tr st l = .ok st') :
    st'.currentSection = csStep st.currentSection l := by
  rcases l with ⟨ty, content, key?, value?⟩
  cases ty with
  | sec =>
    simp only [pass1Step, csStep] at h ⊢
    cases hs : sectionName content with
    | none => rw [hs] at h; cases h; rfl
    | some s => rw [hs] at h; cases h; rfl
  | key =>
    simp only [pass1Step, csStep] at h ⊢
    rcases key? with _ | k <;> rcases value? with _ | v
    · cases h; rfl
    · cases h; rfl
    · cases h; rfl
    · dsimp only at h ⊢
      by_cases hk : k = [] ∨ v = []
      · rw [if_pos hk] at h ⊢; cases h; rfl
      · rw [if_neg hk] at h ⊢
        split at h
        · split at h
          · cases h; rfl
          · exact Except.noConfusion h
        · split at h
          · split at h
            · cases h; rfl
            · exact Except.noConfusion h
          · exact Except.noConfusion h
  | comment => cases h; rfl
  | empty => cases h; rfl

theorem pass2Step_cs {t : TranslatedContent} {st : Pass2State} {l : IniLine}
    {st' : Pass2State} (h : pass2Step t st l = .ok st') :
    st'.currentSection = csStep st.currentSection l := by
  rcases l with ⟨ty, content, key?, value?⟩
  cases ty with
  | sec =>
    simp only [pass2Step, csStep] at h ⊢
    cases hs : sectionName content with
    | none => rw [hs] at h; cases h; rfl
    | some s => rw [hs] at h; cases h; rfl
  | key =>
    simp only [pass2Step, csStep] at h ⊢
    rcases key? with _ | k <;> rcases value? with _ | v
    · cases h; rfl
    · cases h; rfl
    · cases h; rfl
    · dsimp only at h ⊢
      by_cases hk : k = [] ∨ v = []
      · rw [if_pos hk] at h ⊢; cases h; rfl
      · rw [if_neg hk] at h ⊢
        split at h
        · exact Except.noConfusion h
        · cases h; rfl
  | comment => cases h; rfl
  | empty => cases h; rfl

theorem pass1Go_cs {tr : Tr} {st st' : Pass1State} {ls : List IniLine}
    (h : pass1Go tr st ls = .ok st') :
    st'.currentSection = csAfter st.currentSection ls := by
  induction ls generalizing st with
  | nil => cases h; rfl
  | cons l ls ih =>
    simp only [pass1Go] at h
    cases hstep : pass1Step tr st l with
    | error e => rw [hstep] at h; exact Except.noConfusion h
    | ok st1 =>
      rw [hstep] at h
      rw [csAfter_cons, ← pass1Step_cs hstep]
      exact ih h

theorem pass2Go_cs {t : TranslatedContent} {st st' : Pass2State}
    {ls : List IniLine} (h : pass2Go t st ls = .ok st') :
    st'.currentSection = csAfter st.currentSection ls := by
  induction ls generalizing st with
  | nil => cases h; rfl
  | cons l ls ih =>
    simp only [pass2Go] at h
    cases hstep : pass2Step t st l with
    | error e => rw [hstep] at h; exact Except.noConfusion h
    | ok st1 =>
      rw [hstep] at h
      rw [csAfter_cons, ← pass2Step_cs hstep]
      exact ih h

theorem pass1Go_append (tr : Tr) (st : Pass1State) (a b : List IniLine) :
    pass1Go tr st (a ++ b) =
      match pass1Go tr st a with
      | .ok st' => pass1Go tr st' b
      | .error e => .error e := by
  induction a generalizing st with
  | nil => rfl
  | cons l ls ih =>
    simp only [List.cons_append, pass1Go]
    cases pass1Step tr st l with
    | ok st1 => exact ih st1
    | error e => rfl

theorem pass2Go_append (t : TranslatedContent) (st : Pass2State)
    (a b : List IniLine) :
    pass2Go t st (a ++ b) =
      match pass2Go t st a with
      | .ok st' => pass2Go t st' b
      | .error e => .error e := by
  induction a generalizing st with
  | nil => rfl
  | cons l ls ih =>
    simp only [List.cons_append, pass2Go]
    cases pass2Step t st l with
    | ok st1 => exact ih st1
    | error e => rfl

/-! ### Table update facts -/

theorem setSection_self (t : TranslatedContent) (s : List Char) (m : KeyMap) :
    setSection t s m s = some m := by
  simp [setSection]

theorem setSection_other (t : TranslatedContent) (s : List Char) (m : KeyMap)
    {s' : List Char} (h : s' ≠ s) : setSection t s m s' = t s' := by
  simp [setSection, h]

theorem setKV_inv {t : TranslatedContent} {s k v : List Char}
    {t' : TranslatedContent} (h : setKV t s k v = some t') :
    ∃ m, t s = some m ∧
      t' = setSection t s (fun k' => if k' = k then some v else m k') := by
  unfold setKV at h
  cases ht : t s with
  | none => rw [ht] at h; exact Option.noConfusion h
  | some m => rw [ht] at h; cases h; exact ⟨m, rfl, rfl⟩

theorem opened_setSection {t : TranslatedContent} {s' : List Char}
    (s : List Char) (m : KeyMap) (h : opened t s') :
    opened (setSection t s m) s' := by
  unfold opened at *
  by_cases hs : s' = s
  · subst hs; rw [setSection_self]; rfl
  · rw [setSection_other _ _ _ hs]; exact h

theorem opened_setSection_self (t : TranslatedContent) (s : List Char)
    (m : KeyMap) : opened (setSection t s m) s := by
  unfold opened
  rw [setSection_self]
  rfl

theorem opened_setKV {t : TranslatedContent} {s k v : List Char}
    {t' : TranslatedContent} (h : setKV t s k v = some t') {s' : List Char}
    (ho : opened t s') : opened t' s' := by
  obtain ⟨m, _, rfl⟩ := setKV_inv h
  exact opened_setSection _ _ ho

theorem opened_setKV_self {t : TranslatedContent} {s k v : List Char}
    {t' : TranslatedContent} (h : setKV t s k v = some t') : opened t' s := by
  obtain ⟨m, _, rfl⟩ := setKV_inv h
  exact opened_setSection_self _ _ _

theorem lookupKV_setKV_self {t : TranslatedContent} {s k v : List Char}
    {t' : TranslatedContent} (h : setKV t s k v = some t') :
    lookupKV t' s k = some v := by
  obtain ⟨m, _, rfl⟩ := setKV_inv h
  unfold lookupKV
  rw [setSection_self]
  simp

theorem lookupKV_setKV_other_sec {t : TranslatedContent} {s k v : List Char}
    {t' : TranslatedContent} (h : setKV t s k v = some t') {s' : List Char}
    (hs : s' ≠ s) (k' : List Char) : lookupKV t' s' k' = lookupKV t s' k' := by
  obtain ⟨m, _, rfl⟩ := setKV_inv h
  unfold lookupKV
  rw [setSection_other _ _ _ hs]

theorem lookupKV_setKV_other_key {t : TranslatedContent} {s k v : List Char}
    {t' : TranslatedContent} (h : setKV t s k v = some t') {k' : List Char}
    (hk : k' ≠ k) : lookupKV t' s k' = lookupKV t s k' := by
  obtain ⟨m, hm, rfl⟩ := setKV_inv h
  unfold lookupKV
  rw [setSection_self, hm]
  simp [hk]

theorem lookupKV_setSection_other {t : TranslatedContent} {s' s : List Char}
    (h : s' ≠ s) (m : KeyMap) (k : List Char) :
    lookupKV (setSection t s m) s' k = lookupKV t s' k := by
  unfold lookupKV
  rw [setSection_other _ _ _ h]

/-! ### Pass 1 never removes a section entry -/

theorem pass1Step_opened {tr : Tr} {st : Pass1State} {l : IniLine}
    {st' : Pass1State} (h : pass1Step tr st l = .ok st') {s : List Char}
    (ho : opened st.table s) : opened st'.table s := by
  rcases l with ⟨ty, content, key?, value?⟩
  cases ty with
  | sec =>
    simp only [pass1Step] at h
    cases hs : sectionName content with
    | none => rw [hs] at h; cases h; exact ho
    | some s0 => rw [hs] at h; cases h; exact opened_setSection _ _ ho
  | key =>
    simp only [pass1Step] at h
    rcases key? with _ | k <;> rcases value? with _ | v
    · cases h; exact ho
    · cases h; exact ho
    · cases h; exact ho
    · dsimp only at h
      by_cases hk : k = [] ∨ v = []
      · rw [if_pos hk] at h; cases h; exact ho
      · rw [if_neg hk] at h
        have htbl : opened
            (if st.currentSection = [] then setSection st.table defaultS emptyKM
             else st.table) s := by
          split
          · exact opened_setSection _ _ ho
          · exact ho
        split at h
        · split at h
          · next hkv => cases h; exact opened_setKV hkv htbl
          · exact Except.noConfusion h
        · split at h
          · split at h
            · next hkv => cases h; exact opened_setKV hkv htbl
            · exact Except.noConfusion h
          · exact Except.noConfusion h
  | comment => cases h; exact ho
  | empty => cases h; exact ho

theorem pass1Go_opened {tr : Tr} : ∀ {ls : List IniLine}
    {st st' : Pass1State}, pass1Go tr st ls = .ok st' → ∀ {s : List Char},
    opened st.table s → opened st'.table s := by
  intro ls
  induction ls with
  | nil => intro st st' h s ho; cases h; exact ho
  | cons l ls ih =>
    intro st st' h s ho
    simp only [pass1Go] at h
    cases hstep : pass1Step tr st l with
    | error e => rw [hstep] at h; exact Except.noConfusion h
    | ok st1 =>
      rw [hstep] at h
      exact ih h (pass1Step_opened hstep ho)

/-- A successful pass-1 store on a key line opens the section it stores
into (the effective current section). -/
theorem pass1Step_key_opened {tr : Tr} {st st' : Pass1State}
    {content k v : List Char}
    (h : pass1Step tr st ⟨.key, content, some k, some v⟩ = .ok st')
    (hk : ¬(k = [] ∨ v = [])) :
    opened st'.table
      (if st.currentSection = [] then defaultS else st.currentSection) := by
  simp only [pass1Step] at h
  rw [if_neg hk] at h
  split at h
  · split at h
    · next hkv => cases h; exact opened_setKV_self hkv
    · exact Except.noConfusion h
  · split at h
    · split at h
      · next hkv => cases h; exact opened_setKV_self hkv
      · exact Except.noConfusion h
    · exact Except.noConfusion h

/-! ### Lockstep: whenever pass 1 succeeds, the emit pass succeeds too -/

theorem pass2Step_ok_of_pass1 {tr : Tr} {T : TranslatedContent}
    {st1 stm : Pass1State} {st2 : Pass2State} {l : IniLine}
    (h : pass1Step tr st1 l = .ok stm)
    (hcs : st2.currentSection = st1.currentSection)
    (hT : ∀ s, opened stm.table s → opened T s) :
    ∃ st2', pass2Step T st2 l = .ok st2' ∧
      st2'.currentSection = stm.currentSection := by
  have hmcs := pass1Step_cs h
  rcases l with ⟨ty, content, key?, value?⟩
  cases ty with
  | sec =>
    simp only [pass2Step]
    cases hs : sectionName content with
    | none =>
      refine ⟨st2, rfl, ?_⟩
      rw [hmcs]
      simp [csStep, hs, hcs]
    | some s =>
      refine ⟨_, rfl, ?_⟩
      rw [hmcs]
      simp [csStep, hs]
  | key =>
    simp only [pass2Step]
    rcases key? with _ | k <;> rcases value? with _ | v
    · exact ⟨_, rfl, by rw [hmcs]; simpa [csStep] using hcs⟩
    · exact ⟨_, rfl, by rw [hmcs]; simpa [csStep] using hcs⟩
    · exact ⟨_, rfl, by rw [hmcs]; simpa [csStep] using hcs⟩
    · dsimp only
      by_cases hk : k = [] ∨ v = []
      · rw [if_pos hk]
        refine ⟨_, rfl, ?_⟩
        rw [hmcs]
        simp [csStep, hk, hcs]
      · rw [if_neg hk]
        have hop : opened T
            (if st1.currentSection = [] then defaultS else st1.currentSection) :=
          hT _ (pass1Step_key_opened h hk)
        rw [hcs]
        cases hTcs : T (if st1.currentSection = [] then defaultS
            else st1.currentSection) with
        | none =>
          unfold opened at hop
          rw [hTcs] at hop
          exact absurd hop (by simp)
        | some m =>
          refine ⟨_, rfl, ?_⟩
          rw [hmcs]
          simp [csStep, hk]
  | comment => exact ⟨_, rfl, by rw [hmcs]; simpa [csStep] using hcs⟩
  | empty => exact ⟨_, rfl, by rw [hmcs]; simpa [csStep] using hcs⟩

theorem pass2Go_ok_of_pass1 {tr : Tr} {T : TranslatedContent} :
    ∀ {ls : List IniLine} {st1 st1' : Pass1State} {st2 : Pass2State},
    pass1Go tr st1 ls = .ok st1' →
    st2.currentSection = st1.currentSection →
    (∀ s, opened st1'.table s → opened T s) →
    ∃ st2', pass2Go T st2 ls = .ok st2' ∧
      st2'.currentSection = st1'.currentSection := by
  intro ls
  induction ls with
  | nil =>
    intro st1 st1' st2 h hcs hT
    cases h
    exact ⟨st2, rfl, hcs⟩
  | cons l ls ih =>
    intro st1 st1' st2 h hcs hT
    simp only [pass1Go] at h
    cases hstep : pass1Step tr st1 l with
    | error e => rw [hstep] at h; exact Except.noConfusion h
    | ok stm =>
      rw [hstep] at h
      obtain ⟨st2m, hstep2, hcs2⟩ := pass2Step_ok_of_pass1 hstep hcs
        (fun s hs => hT s (pass1Go_opened h hs))
      obtain ⟨st2', hgo2, hcs'⟩ := ih h hcs2 hT
      refine ⟨st2', ?_, hcs'⟩
      simp only [pass2Go]
      rw [hstep2]
      exact hgo2

/-! ### Openings performed by one line, and step equations -/
theorem openingsGo_cons (cs : List Char) (l : IniLine) (ls : List IniLine) :
    openingsGo cs (l :: ls) = openEvt cs l ++ openingsGo (csStep cs l) ls := by
  rcases l with ⟨ty, content, key?, value?⟩
  cases ty with
  | sec => cases hs : sectionName content <;>
      simp [openingsGo, openEvt, csStep, hs]
  | key =>
    rcases key? with _ | k <;> rcases value? with _ | v
    · rfl
    · rfl
    · rfl
    · simp only [openingsGo, openEvt, csStep]
      by_cases hk : k = [] ∨ v = [] <;> by_cases hc : cs = [] <;>
        simp [hk, hc]
  | comment => simp [openingsGo, openEvt, csStep]
  | empty => simp [openingsGo, openEvt, csStep]

theorem synthD_cons (cs : List Char) (l : IniLine) (ls : List IniLine) :
    synthD cs (l :: ls) = (synthEvt cs l || synthD (csStep cs l) ls) := by
  rcases l with ⟨ty, content, key?, value?⟩
  cases ty with
  | sec => cases hs : sectionName content <;>
      simp [synthD, synthEvt, csStep, hs]
  | key =>
    rcases key? with _ | k <;> rcases value? with _ | v
    · rfl
    · rfl
    · rfl
    · simp only [synthD, synthEvt, csStep]
      by_cases hk : k = [] ∨ v = [] <;> by_cases hc : cs = [] <;>
        simp [hk, hc]
  | comment => simp [synthD, synthEvt, csStep]
  | empty => simp [synthD, synthEvt, csStep]

theorem openingsGo_append (a : List IniLine) :
    ∀ (cs : List Char) (b : List IniLine),
    openingsGo cs (a ++ b) = openingsGo cs a ++ openingsGo (csAfter cs a) b := by
  induction a with
  | nil => intro cs b; rfl
  | cons l ls ih =>
    intro cs b
    rw [List.cons_append, openingsGo_cons, openingsGo_cons, ih, csAfter_cons,
      List.append_assoc]

theorem csAfter_self_or_mem (ls : List IniLine) : ∀ cs : List Char,
    csAfter cs ls = cs ∨ csAfter cs ls ∈ openingsGo cs ls := by
  induction ls with
  | nil => intro cs; exact Or.inl rfl
  | cons l ls ih =>
    intro cs
    rw [csAfter_cons, openingsGo_cons]
    rcases hstep : openEvt cs l with _ | ⟨s, rest⟩
    · have hcs : csStep cs l = cs := by
        rcases l with ⟨ty, content, key?, value?⟩
        cases ty with
        | sec =>
          cases hs : sectionName content
          · simp [csStep, hs]
          · simp [openEvt, hs] at hstep
        | key =>
          rcases key? with _ | k <;> rcases value? with _ | v
          · rfl
          · rfl
          · rfl
          · simp only [csStep]
            by_cases hk : k = [] ∨ v = []
            · simp [hk]
            · by_cases hc : cs = []
              · simp [openEvt, hk, hc] at hstep
              · simp [hk, hc]
        | comment => rfl
        | empty => rfl
      rw [hcs]
      rcases ih cs with h | h
      · exact Or.inl h
      · exact Or.inr (by simpa using h)
    · have hcs : csStep cs l = s ∧ rest = [] := by
        rcases l with ⟨ty, content, key?, value?⟩
        cases ty with
        | sec =>
          cases hs : sectionName content
          · simp [openEvt, hs] at hstep
          · simp only [openEvt, hs] at hstep
            cases hstep
            simp [csStep, hs]
        | key =>
          rcases key? with _ | k <;> rcases value? with _ | v <;>
            simp only [openEvt] at hstep <;> try exact List.noConfusion hstep
          by_cases hk : k = [] ∨ v = []
          · rw [if_pos hk] at hstep; exact List.noConfusion hstep
          · rw [if_neg hk] at hstep
            by_cases hc : cs = []
            · rw [if_pos hc] at hstep
              cases hstep
              simp [csStep, hk, hc]
            · rw [if_neg hc] at hstep; exact List.noConfusion hstep
        | comment => exact List.noConfusion hstep
        | empty => exact List.noConfusion hstep
      obtain ⟨hcs, hrest⟩ := hcs
      subst hrest
      rw [hcs]
      rcases ih s with h | h
      · exact Or.inr (by simp [h])
      · exact Or.inr (by simp [h])

/-! ### Preservation of stored entries across later lines -/

theorem pass1Step_preserve_isSome {tr : Tr} {st st' : Pass1State}
    {l : IniLine} {S k : List Char} (h : pass1Step tr st l = .ok st')
    (hS : S ∉ openEvt st.currentSection l)
    (ho : (lookupKV st.table S k).isSome = true) :
    (lookupKV st'.table S k).isSome = true := by
  rcases l with ⟨ty, content, key?, value?⟩
  cases ty with
  | sec =>
    simp only [pass1Step] at h
    cases hs : sectionName content with
    | none => rw [hs] at h; cases h; exact ho
    | some s0 =>
      rw [hs] at h
      cases h
      have hne : S ≠ s0 := by simp [openEvt, hs] at hS; exact hS
      rw [lookupKV_setSection_other hne]
      exact ho
  | key =>
    simp only [pass1Step] at h
    rcases key? with _ | k' <;> rcases value? with _ | v
    · cases h; exact ho
    · cases h; exact ho
    · cases h; exact ho
    · dsimp only at h
      by_cases hk : k' = [] ∨ v = []
      · rw [if_pos hk] at h; cases h; exact ho
      · rw [if_neg hk] at h
        have store : ∀ {w : List Char} {tbl' : TranslatedContent},
            setKV (if st.currentSection = [] then
                setSection st.table defaultS emptyKM else st.table)
              (if st.currentSection = [] then defaultS else st.currentSection)
              k' w = some tbl' →
            (lookupKV tbl' S k).isSome = true := by
          intro w tbl' hkv
          by_cases hc : st.currentSection = []
          · have hdef : S ≠ defaultS := by
              simp [openEvt, hk, hc] at hS
              exact hS
            simp only [if_pos hc] at hkv
            rw [lookupKV_setKV_other_sec hkv hdef, lookupKV_setSection_other hdef]
            exact ho
          · simp only [if_neg hc] at hkv
            by_cases hsec : S = st.currentSection
            · subst hsec
              by_cases hkey : k = k'
              · subst hkey
                rw [lookupKV_setKV_self hkv]
                rfl
              · rw [lookupKV_setKV_other_key hkv hkey]
                exact ho
            · rw [lookupKV_setKV_other_sec hkv hsec]
              exact ho
        split at h
        · split at h
          · next hkv => cases h; exact store hkv
          · exact Except.noConfusion h
        · split at h
          · split at h
            · next hkv => cases h; exact store hkv
            · exact Except.noConfusion h
          · exact Except.noConfusion h
  | comment => cases h; exact ho
  | empty => cases h; exact ho

theorem pass1Go_preserve_isSome {tr : Tr} {S k : List Char} :
    ∀ {ls : List IniLine} {st st' : Pass1State},
    S ∉ openingsGo st.currentSection ls →
    pass1Go tr st ls = .ok st' →
    (lookupKV st.table S k).isSome = true →
    (lookupKV st'.table S k).isSome = true := by
  intro ls
  induction ls with
  | nil => intro st st' _ h ho; cases h; exact ho
  | cons l ls ih =>
    intro st st' hS h ho
    rw [openingsGo_cons] at hS
    simp only [List.mem_append, not_or] at hS
    simp only [pass1Go] at h
    cases hstep : pass1Step tr st l with
    | error e => rw [hstep] at h; exact Except.noConfusion h
    | ok st1 =>
      rw [hstep] at h
      have h1 := pass1Step_preserve_isSome hstep hS.1 ho
      have hcs1 := pass1Step_cs hstep
      exact ih (by rw [hcs1]; exact hS.2) h h1

/-! ### What a key line stores in pass 1 -/

theorem pass1Step_store_isSome {tr : Tr} {st st' : Pass1State}
    {content k v : List Char}
    (h : pass1Step tr st ⟨.key, content, some k, some v⟩ = .ok st')
    (hk : ¬(k = [] ∨ v = [])) :
    (lookupKV st'.table
      (if st.currentSection = [] then defaultS else st.currentSection)
      k).isSome = true := by
  simp only [pass1Step] at h
  rw [if_neg hk] at h
  split at h
  · split at h
    · next hkv => cases h; rw [lookupKV_setKV_self hkv]; rfl
    · exact Except.noConfusion h
  · split at h
    · split at h
      · next hkv => cases h; rw [lookupKV_setKV_self hkv]; rfl
      · exact Except.noConfusion h
    · exact Except.noConfusion h

theorem pass1Step_store_val {tr : Tr} {st st' : Pass1State}
    {content k v : List Char}
    (h : pass1Step tr st ⟨.key, content, some k, some v⟩ = .ok st')
    (hk : ¬(k = [] ∨ v = [])) (htv : trim v ≠ []) :
    ∃ w, tr v = .ok w ∧
      lookupKV st'.table
        (if st.currentSection = [] then defaultS else st.currentSection) k
        = some w := by
  simp only [pass1Step] at h
  rw [if_neg hk, if_neg htv] at h
  split at h
  · next w hw =>
    split at h
    · next hkv => cases h; exact ⟨w, hw, lookupKV_setKV_self hkv⟩
    · exact Except.noConfusion h
  · exact Except.noConfusion h

theorem pass1Step_preserve_val {tr : Tr} {st st' : Pass1State} {l : IniLine}
    {k : List Char} (h : pass1Step tr st l = .ok st') (hty : l.type ≠ .sec)
    (hkey : l.key ≠ some k) (hcs : st.currentSection ≠ []) :
    st'.currentSection = st.currentSection ∧
    ∀ S, lookupKV st'.table S k = lookupKV st.table S k := by
  rcases l with ⟨ty, content, key?, value?⟩
  cases ty with
  | sec => exact absurd rfl hty
  | key =>
    simp only [pass1Step] at h
    rcases key? with _ | k' <;> rcases value? with _ | v
    · cases h; exact ⟨rfl, fun S => rfl⟩
    · cases h; exact ⟨rfl, fun S => rfl⟩
    · cases h; exact ⟨rfl, fun S => rfl⟩
    · dsimp only at h
      have hk' : k' ≠ k := by
        intro hkk
        exact hkey (by rw [hkk])
      by_cases hk : k' = [] ∨ v = []
      · rw [if_pos hk] at h; cases h; exact ⟨rfl, fun S => rfl⟩
      · rw [if_neg hk] at h
        simp only [if_neg hcs] at h
        have store : ∀ {w : List Char} {tbl' : TranslatedContent},
            setKV st.table st.currentSection k' w = some tbl' →
            ∀ S, lookupKV tbl' S k = lookupKV st.table S k := by
          intro w tbl' hkv S
          by_cases hsec : S = st.currentSection
          · subst hsec
            exact lookupKV_setKV_other_key hkv hk'.symm
          · exact lookupKV_setKV_other_sec hkv hsec k
        split at h
        · split at h
          · next hkv => cases h; exact ⟨rfl, store hkv⟩
          · exact Except.noConfusion h
        · split at h
          · split at h
            · next hkv => cases h; exact ⟨rfl, store hkv⟩
            · exact Except.noConfusion h
          · exact Except.noConfusion h
  | comment => cases h; exact ⟨rfl, fun S => rfl⟩
  | empty => cases h; exact ⟨rfl, fun S => rfl⟩

theorem pass1Go_preserve_val {tr : Tr} {k : List Char} :
    ∀ {ls : List IniLine} {st st' : Pass1State},
    (∀ l ∈ ls, l.type ≠ .sec ∧ l.key ≠ some k) →
    st.currentSection ≠ [] →
    pass1Go tr st ls = .ok st' →
    st'.currentSection = st.currentSection ∧
    ∀ S, lookupKV st'.table S k = lookupKV st.table S k := by
  intro ls
  induction ls with
  | nil => intro st st' _ _ h; cases h; exact ⟨rfl, fun S => rfl⟩
  | cons l ls ih =>
    intro st st' hls hcs h
    simp only [pass1Go] at h
    cases hstep : pass1Step tr st l with
    | error e => rw [hstep] at h; exact Except.noConfusion h
    | ok st1 =>
      rw [hstep] at h
      obtain ⟨hcs1, hval1⟩ :=
        pass1Step_preserve_val hstep (hls l (by simp)).1 (hls l (by simp)).2 hcs
      obtain ⟨hcs2, hval2⟩ := ih (fun l' hl' => hls l' (by simp [hl']))
        (by rw [hcs1]; exact hcs) h
      exact ⟨by rw [hcs2, hcs1], fun S => by rw [hval2 S, hval1 S]⟩

/-! ### Output line counting for the emit pass -/

theorem pass2Step_out_length {T : TranslatedContent} {st st' : Pass2State}
    {l : IniLine} (h : pass2Step T st l = .ok st')
    (hsec : l.type = .sec → (sectionName l.content).isSome = true) :
    st'.out.length
      = st.out.length + 1 + (if synthEvt st.currentSection l then 1 else 0) := by
  rcases l with ⟨ty, content, key?, value?⟩
  cases ty with
  | sec =>
    simp only [pass2Step] at h
    cases hs : sectionName content with
    | none =>
      have := hsec rfl
      rw [hs] at this
      exact absurd this (by simp)
    | some s =>
      rw [hs] at h
      cases h
      simp [synthEvt]
  | key =>
    simp only [pass2Step] at h
    rcases key? with _ | k <;> rcases value? with _ | v
    · cases h; simp [synthEvt]
    · cases h; simp [synthEvt]
    · cases h; simp [synthEvt]
    · dsimp only at h
      by_cases hk : k = [] ∨ v = []
      · rw [if_pos hk] at h
        cases h
        simp [synthEvt, hk]
      · rw [if_neg hk] at h
        split at h
        · exact Except.noConfusion h
        · cases h
          by_cases hc : st.currentSection = [] <;>
            simp [synthEvt, hk, hc]
  | comment => cases h; simp [synthEvt]
  | empty => cases h; simp [synthEvt]

theorem csStep_ne_nil {cs : List Char} {l : IniLine} (hcs : cs ≠ [])
    (hsec : l.type = .sec → ∃ s, sectionName l.content = some s ∧ s ≠ []) :
    csStep cs l ≠ [] := by
  rcases l with ⟨ty, content, key?, value?⟩
  cases ty with
  | sec =>
    obtain ⟨s, hs, hsne⟩ := hsec rfl
    simp [csStep, hs]
    exact hsne
  | key =>
    rcases key? with _ | k <;> rcases value? with _ | v
    · exact hcs
    · exact hcs
    · exact hcs
    · simp only [csStep]
      by_cases hk : k = [] ∨ v = []
      · simp [hk]; exact hcs
      · simp [hk, hcs]
  | comment => exact hcs
  | empty => exact hcs

theorem synthEvt_false_of_ne_nil {cs : List Char} (l : IniLine)
    (hcs : cs ≠ []) : synthEvt cs l = false := by
  rcases l with ⟨ty, content, key?, value?⟩
  cases ty with
  | sec => rfl
  | key =>
    rcases key? with _ | k <;> rcases value? with _ | v
    · rfl
    · rfl
    · rfl
    · simp [synthEvt, hcs]
  | comment => rfl
  | empty => rfl

theorem synthD_false_of_ne_nil : ∀ {ls : List IniLine} {cs : List Char},
    (∀ l ∈ ls, l.type = .sec → ∃ s, sectionName l.content = some s ∧ s ≠ []) →
    cs ≠ [] → synthD cs ls = false := by
  intro ls
  induction ls with
  | nil => intro cs _ _; rfl
  | cons l ls ih =>
    intro cs hls hcs
    rw [synthD_cons, synthEvt_false_of_ne_nil l hcs, Bool.false_or]
    exact ih (fun l' hl' => hls l' (by simp [hl']))
      (csStep_ne_nil hcs (hls l (by simp)))

theorem pass2Go_out_length : ∀ {ls : List IniLine} {T : TranslatedContent}
    {st st' : Pass2State},
    (∀ l ∈ ls, l.type = .sec → ∃ s, sectionName l.content = some s ∧ s ≠ []) →
    pass2Go T st ls = .ok st' →
    st'.out.length = st.out.length + ls.length
      + (if synthD st.currentSection ls then 1 else 0) := by
  intro ls
  induction ls with
  | nil => intro T st st' _ h; cases h; simp [synthD]
  | cons l ls ih =>
    intro T st st' hls h
    simp only [pass2Go] at h
    cases hstep : pass2Step T st l with
    | error e => rw [hstep] at h; exact Except.noConfusion h
    | ok st1 =>
      rw [hstep] at h
      have hlen1 := pass2Step_out_length hstep
        (fun hty => by
          obtain ⟨s, hs, _⟩ := hls l (by simp) hty
          rw [hs]
          rfl)
      have hlen2 := ih (fun l' hl' => hls l' (by simp [hl'])) h
      have hcs1 := pass2Step_cs hstep
      rw [hlen2, hlen1, hcs1, synthD_cons]
      cases hE : synthEvt st.currentSection l with
      | false =>
        simp only [Bool.false_or, List.length_cons]
        cases hD : synthD (csStep st.currentSection l) ls <;> simp [hD] <;> omega
      | true =>
        have hdef : csStep st.currentSection l = defaultS := by
          rcases l with ⟨ty, content, key?, value?⟩
          cases ty with
          | sec => exact absurd hE (by simp [synthEvt])
          | key =>
            rcases key? with _ | k <;> rcases value? with _ | v
            · exact absurd hE (by simp [synthEvt])
            · exact absurd hE (by simp [synthEvt])
            · exact absurd hE (by simp [synthEvt])
            · simp only [synthEvt] at hE
              simp only [csStep]
              split at hE
              · exact absurd hE (by simp)
              · next hk =>
                rw [if_neg hk, if_pos (by exact of_decide_eq_true hE)]
          | comment => exact absurd hE (by simp [synthEvt])
          | empty => exact absurd hE (by simp [synthEvt])
        have hfalse : synthD (csStep st.currentSection l) ls = false := by
          rw [hdef]
          exact synthD_false_of_ne_nil (fun l' hl' => hls l' (by simp [hl']))
            (by decide)
        rw [hfalse]
        simp only [Bool.true_or, List.length_cons]
        simp
        ring

/-! ### The JSON walker preserves structure -/

mutual

theorem tjvShapeAux (tr : Tr) : ∀ (j j' : Json),
    translateJsonValue tr j = .ok j' → sameShape j j' = true
  | .str s, j', h => by
    simp only [translateJsonValue] at h
    split at h
    · cases h; rfl
    · split at h
      · cases h; rfl
      · exact Except.noConfusion h
  | .num n, j', h => by
    cases h
    simp [sameShape]
  | .bool b, j', h => by
    cases h
    simp [sameShape]
  | .null, j', h => by
    cases h
    rfl
  | .arr xs, j', h => by
    simp only [translateJsonValue] at h
    cases hA : tjArr tr xs with
    | error e => rw [hA] at h; exact Except.noConfusion h
    | ok ys =>
      rw [hA] at h
      cases h
      simp only [sameShape]
      exact tjArrShapeAux tr xs ys hA
  | .obj fs, j', h => by
    simp only [translateJsonValue] at h
    cases hO : tjObj tr fs with
    | error e => rw [hO] at h; exact Except.noConfusion h
    | ok gs =>
      rw [hO] at h
      cases h
      simp only [sameShape]
      exact tjObjShapeAux tr fs gs hO

theorem tjArrShapeAux (tr : Tr) : ∀ (xs ys : List Json),
    tjArr tr xs = .ok ys → sameShapeArr xs ys = true
  | [], ys, h => by cases h; rfl
  | x :: xs, ys, h => by
    simp only [tjArr] at h
    cases hx : translateJsonValue tr x with
    | error e => rw [hx] at h; exact Except.noConfusion h
    | ok y =>
      rw [hx] at h
      cases hxs : tjArr tr xs with
      | error e => rw [hxs] at h; exact Except.noConfusion h
      | ok ys0 =>
        rw [hxs] at h
        cases h
        simp only [sameShapeArr, Bool.and_eq_true]
        exact ⟨tjvShapeAux tr x y hx, tjArrShapeAux tr xs ys0 hxs⟩

theorem tjObjShapeAux (tr : Tr) : ∀ (fs gs : List (List Char × Json)),
    tjObj tr fs = .ok gs → sameShapeObj fs gs = true
  | [], gs, h => by cases h; rfl
  | (k, v) :: fs, gs, h => by
    simp only [tjObj] at h
    cases hv : translateJsonValue tr v with
    | error e => rw [hv] at h; exact Except.noConfusion h
    | ok w =>
      rw [hv] at h
      cases hfs : tjObj tr fs with
      | error e => rw [hfs] at h; exact Except.noConfusion h
      | ok gs0 =>
        rw [hfs] at h
        cases h
        simp only [sameShapeObj, Bool.and_eq_true]
        exact ⟨⟨by simp, tjvShapeAux tr v w hv⟩, tjObjShapeAux tr fs gs0 hfs⟩

end

/-! ### The claims -/

/-- C1 (amended): in pass 1, a section header whose name the regex
extracts does NOT preserve the section's previous keys: it overwrites the
table entry with a fresh empty object, so every key stored under that
name before the header is gone afterwards; entries of other sections are
untouched, and the name becomes the current section. -/
theorem reopen_section_resets_entry (tr : Tr) (st : Pass1State) (l : IniLine)
    (s : List Char) (hty : l.type = .sec) (hs : sectionName l.content = some s) :
    ∃ st', pass1Step tr st l = .ok st' ∧
      st'.currentSection = s ∧
      (∀ k, lookupKV st'.table s k = none) ∧
      (∀ s', s' ≠ s → st'.table s' = st.table s') := by
  rcases l with ⟨ty, content, key?, value?⟩
  cases hty
  refine ⟨⟨setSection st.table s emptyKM, s⟩, ?_, rfl, ?_, ?_⟩
  · simp only [pass1Step]
    rw [hs]
  · intro k
    show lookupKV (setSection st.table s emptyKM) s k = none
    unfold lookupKV
    rw [setSection_self]
    rfl
  · intro s' hs'
    exact setSection_other _ _ _ hs'

/-- C1 witness: the amended theorem applied to the header `[s]`. -/
theorem reopen_section_resets_entry_witness :
    ∃ st', pass1Step trEx ⟨emptyTC, []⟩ (classifyLine "[s]".toList) = .ok st' ∧
      st'.currentSection = "s".toList ∧
      (∀ k, lookupKV st'.table "s".toList k = none) ∧
      (∀ s', s' ≠ "s".toList → st'.table s' = emptyTC s') :=
  reopen_section_resets_entry trEx ⟨emptyTC, []⟩ (classifyLine "[s]".toList)
    "s".toList (by decide) (by decide)

/-- C1 counterexample: in `[s] / a=x / [s] / b=y`, the key `a` is stored
after the first two lines, but after the second `[s]` header the whole
run leaves `table["s"]["a"]` undefined — re-opening cleared it. -/
theorem reopen_section_cex :
    (pass1Go trEx ⟨emptyTC, []⟩ ((parseIniWithComments cexReopen).take 2)).toOption.map
        (fun st => lookupKV st.table "s".toList "a".toList)
      = some (some "x!".toList) ∧
    (pass1Go trEx ⟨emptyTC, []⟩ (parseIniWithComments cexReopen)).toOption.map
        (fun st => lookupKV st.table "s".toList "a".toList)
      = some none := by
  decide

/-- C3 (amended): the `AmbiguousFormat` failure (exit 1, no output, and
independent of the probe and of the translator — i.e. before any network
call) occurs exactly when NEITHER format flag is set; when both flags are
set, the `--ini` flag is ignored and the run behaves as a JSON run. -/
theorem ambiguous_format_neither_only :
    (∀ (probeOk : Bool) (fc : List Char) (jp : Option Json) (tr : Tr),
      runMain ⟨true, false, false, probeOk, fc, jp, tr⟩
        = (1, some .ambiguousFormat, none)) ∧
    (∀ (fe pr : Bool) (fc : List Char) (jp : Option Json) (tr : Tr) (b : Bool),
      runMain ⟨fe, true, b, pr, fc, jp, tr⟩
        = runMain ⟨fe, true, false, pr, fc, jp, tr⟩) := by
  constructor
  · intro probeOk fc jp tr
    rfl
  · intro fe pr fc jp tr b
    by_cases hfe : fe = false <;> simp [runMain, hfe]

/-- C3 counterexample: with BOTH `--json` and `--ini` set, the run does
not fail with `AmbiguousFormat`: it succeeds (exit 0) and writes output
via the JSON path. -/
theorem both_flags_accepted_cex :
    runMain ⟨true, true, true, true, [], some .null, trEx⟩
      = (0, none, some (.json .null)) := rfl

/-- C4 (amended): `translateText` propagates an error for every failed
`axios.post` (transport failure or non-success status, which axios turns
into a rejection), but on a fulfilled response it simply returns
`response.data.translatedText` — when that field is absent, the caller
receives `undefined`, not an error. -/
theorem translateText_propagates_transport_errors :
    (∀ e, translateText (.error e) = .error e) ∧
    (∀ r, translateText (.ok r) = .ok r.translatedText) :=
  ⟨fun _ => rfl, fun _ => rfl⟩

/-- C4 counterexample: a success response whose payload lacks
`translatedText` makes `translateText` return the absent value
(`Except.ok none`, i.e. `undefined`) instead of propagating an error. -/
theorem translateText_missing_field_cex :
    translateText (.ok ⟨none⟩) = .ok none := rfl

/-- C5 (amended): pass 1 does NOT process a key-value line whose value
trims to the empty string: the `line.key && line.value` guard rejects the
(already trimmed) empty value, so nothing is stored and the state is
unchanged — in particular the value is not stored unchanged in the
table. -/
theorem empty_value_line_skipped (tr : Tr) (st : Pass1State) (l : IniLine)
    (hty : l.type = .key) (hval : l.value = some []) :
    pass1Step tr st l = .ok st := by
  rcases l with ⟨ty, content, key?, value?⟩
  cases hty
  cases hval
  rcases key? with _ | k
  · rfl
  · simp only [pass1Step]
    rw [if_pos (Or.inr trivial)]

/-- C5 witness: the amended theorem applied to the line `port=`. -/
theorem empty_value_line_skipped_witness :
    pass1Step trEx ⟨emptyTC, []⟩ (classifyLine "port=".toList)
      = .ok ⟨emptyTC, []⟩ :=
  empty_value_line_skipped trEx ⟨emptyTC, []⟩ (classifyLine "port=".toList)
    (by decide) (by decide)

/-- C5 counterexample: after pass 1 over the single line `port=`, the
table holds nothing: `table["default"]` was never even created, and
`table["default"]["port"]` is undefined — the empty value was not stored
unchanged. -/
theorem empty_value_not_stored_cex :
    (pass1Go trEx ⟨emptyTC, []⟩ (parseIniWithComments "port=".toList)).toOption.map
        (fun st => (lookupKV st.table defaultS "port".toList,
          (st.table defaultS).isSome))
      = some (none, false) := by
  decide

/-- C6 (confirmed): a line that classifies as key-value with a value that
trims to empty is emitted by pass 2 byte-identically to the raw input
line (the verbatim branch), and pass 1 leaves the state untouched — the
line is never sent to translation and never reconstructed from the
table. -/
theorem empty_value_line_verbatim (T : TranslatedContent) (tr : Tr)
    (st1 : Pass1State) (st2 : Pass2State) (l : List Char)
    (hval : (classifyLine l).value = some []) :
    (classifyLine l).type = .key ∧
    pass2Step T st2 (classifyLine l) = .ok ⟨st2.out ++ [l], st2.currentSection⟩ ∧
    pass1Step tr st1 (classifyLine l) = .ok st1 := by
  by_cases h1 : trim l = []
  · simp [classifyLine, h1] at hval
  · by_cases h2 : (trim l).head? = some ';' ∨ (trim l).head? = some '#'
    · simp [classifyLine, h1, h2] at hval
    · by_cases h3 : isSectionLine (trim l)
      · simp [classifyLine, h1, h2, h3] at hval
      · rcases hkv : keyValueSplit (trim l) with _ | ⟨k0, v0⟩
        · simp [classifyLine, h1, h2, h3, hkv] at hval
        · have hcl : classifyLine l = ⟨.key, l, some (trim k0), some (trim v0)⟩ := by
            simp [classifyLine, h1, h2, h3, hkv]
          rw [hcl] at hval ⊢
          simp only [IniLine.value] at hval
          have hv0 : trim v0 = [] := by
            injection hval
          refine ⟨rfl, ?_, ?_⟩
          · simp only [pass2Step]
            rw [hv0, if_pos (Or.inr rfl)]
          · simp only [pass1Step]
            rw [hv0, if_pos (Or.inr rfl)]

/-- C6 witness: the theorem applied to the line `port=`. -/
theorem empty_value_line_verbatim_witness :
    (classifyLine "port=".toList).type = .key ∧
    pass2Step emptyTC ⟨[], []⟩ (classifyLine "port=".toList)
      = .ok ⟨[] ++ ["port=".toList], []⟩ ∧
    pass1Step trEx ⟨emptyTC, []⟩ (classifyLine "port=".toList)
      = .ok ⟨emptyTC, []⟩ :=
  empty_value_line_verbatim emptyTC trEx ⟨emptyTC, []⟩ ⟨[], []⟩
    "port=".toList (by decide)

/-- C7 (confirmed): whenever the JSON walker succeeds, its result has
exactly the structure of the input: same constructor at every node, equal
non-string leaves, equal array lengths in order, and equal object key
sequences — only string leaf values may differ. -/
theorem translateJsonValue_preserves_shape (tr : Tr) (j j' : Json)
    (h : translateJsonValue tr j = .ok j') : sameShape j j' = true :=
  tjvShapeAux tr j j' h

/-- C7 witness: the walker applied to the nested object of spec
scenario 1 preserves its shape. -/
theorem translateJsonValue_preserves_shape_witness :
    ∃ j', translateJsonValue trEx
        (.obj [("greeting".toList, .str "hello".toList),
               ("count".toList, .num 3),
               ("nested".toList, .obj [("msg".toList, .str "bye".toList)])])
      = .ok j' ∧
      sameShape
        (.obj [("greeting".toList, .str "hello".toList),
               ("count".toList, .num 3),
               ("nested".toList, .obj [("msg".toList, .str "bye".toList)])])
        j' = true :=
  ⟨_, rfl, translateJsonValue_preserves_shape trEx _ _ rfl⟩

/-- C9 (confirmed): every run either fails — exit 1, an error reported,
and NO output file written (this covers the missing file, the
neither-flag `AmbiguousFormat`, the failed probe, a JSON parse error, any
failed translate call, and the internal lookup `TypeError`) — or fully
succeeds, with exit 0 and the output written; there is no partial
output. -/
theorem no_output_on_failure (env : Env) :
    (∃ e, runMain env = (1, some e, none)) ∨
    (∃ w, runMain env = (0, none, some w)) := by
  unfold runMain
  by_cases h1 : env.fileExists = false
  · rw [if_pos h1]
    exact Or.inl ⟨_, rfl⟩
  · rw [if_neg h1]
    by_cases h2 : env.jsonFlag = false ∧ env.iniFlag = false
    · rw [if_pos h2]
      exact Or.inl ⟨_, rfl⟩
    · rw [if_neg h2]
      by_cases h3 : env.probeOk = false
      · rw [if_pos h3]
        exact Or.inl ⟨_, rfl⟩
      · rw [if_neg h3]
        by_cases h4 : env.jsonFlag = true
        · rw [if_pos h4]
          cases hjp : env.jsonParse with
          | none => exact Or.inl ⟨_, rfl⟩
          | some j =>
            dsimp only
            cases htj : translateJsonValue env.tr j with
            | error e => exact Or.inl ⟨_, rfl⟩
            | ok j' => exact Or.inr ⟨_, rfl⟩
        · rw [if_neg h4]
          cases hir : iniRun env.tr env.fileContent with
          | error e => exact Or.inl ⟨_, rfl⟩
          | ok outLines => exact Or.inr ⟨_, rfl⟩

/-- C8 (amended): for an INI run whose pass 1 succeeds, the emit pass
succeeds and produces exactly one output line per input line, plus one
extra line exactly when a `[default]` header is synthesized — PROVIDED no
section header has an empty extracted name (a `[]` header resets the
current section to the empty string, which can re-trigger the synthesis
and add more than one extra line). -/
theorem ini_line_count (content : List Char) (tr : Tr) (stF : Pass1State)
    (hne : ∀ l ∈ parseIniWithComments content, l.type = .sec →
      sectionName l.content ≠ some [])
    (hp1 : pass1Go tr ⟨emptyTC, []⟩ (parseIniWithComments content) = .ok stF) :
    ∃ st2, pass2Go stF.table ⟨[], []⟩ (parseIniWithComments content) = .ok st2 ∧
      st2.out.length = (splitLines content).length +
        (if synthD [] (parseIniWithComments content) then 1 else 0) := by
  have hls : ∀ l ∈ parseIniWithComments content, l.type = .sec →
      ∃ s, sectionName l.content = some s ∧ s ≠ [] := by
    intro l hl hty
    obtain ⟨raw, _, hraw⟩ := List.mem_map.mp hl
    have hsome : (sectionName l.content).isSome = true := by
      rw [← hraw] at hty ⊢
      rw [classifyLine_content]
      exact sectionName_isSome_of_sec hty
    obtain ⟨s, hs⟩ := Option.isSome_iff_exists.mp hsome
    refine ⟨s, hs, ?_⟩
    intro hnil
    exact hne l hl hty (by rw [hs, hnil])
  obtain ⟨st2, h2, _⟩ := @pass2Go_ok_of_pass1 tr stF.table
    (parseIniWithComments content) ⟨emptyTC, []⟩ stF ⟨[], []⟩ hp1 rfl
    (fun s hs => hs)
  refine ⟨st2, h2, ?_⟩
  have hlen := pass2Go_out_length hls h2
  simpa [parseIniWithComments, splitLines] using hlen

/-- C8 witness: on the single line `a=x`, pass 2 emits two lines (the
synthesized `[default]` plus the key line) for one input line. -/
theorem ini_line_count_witness :
    ∃ stF, pass1Go trEx ⟨emptyTC, []⟩ (parseIniWithComments "a=x".toList)
        = .ok stF ∧
      ∃ st2, pass2Go stF.table ⟨[], []⟩ (parseIniWithComments "a=x".toList)
          = .ok st2 ∧
        st2.out.length = (splitLines "a=x".toList).length +
          (if synthD [] (parseIniWithComments "a=x".toList) then 1 else 0) := by
  refine ⟨_, rfl, ?_⟩
  exact ini_line_count "a=x".toList trEx _ (by decide) rfl

/-- C8 counterexample: on `a=x / [] / b=y` (three input lines) the run
emits FIVE output lines — the empty-name header `[]` resets the current
section, so `[default]` is synthesized twice, and the output is neither
n nor n+1. -/
theorem ini_line_count_cex :
    (iniRun trEx cexEmptyName).toOption.map List.length = some 5 ∧
    (splitLines cexEmptyName).length = 3 := by
  decide

theorem pass1Go_cons_ok {tr : Tr} {st : Pass1State} {l : IniLine}
    {ls : List IniLine} {st' : Pass1State}
    (h : pass1Go tr st (l :: ls) = .ok st') :
    ∃ stm, pass1Step tr st l = .ok stm ∧ pass1Go tr stm ls = .ok st' := by
  simp only [pass1Go] at h
  cases hstep : pass1Step tr st l with
  | error e => rw [hstep] at h; exact Except.noConfusion h
  | ok stm => rw [hstep] at h; exact ⟨stm, rfl, h⟩

theorem pass1Go_append_ok {tr : Tr} {st : Pass1State} {a b : List IniLine}
    {st' : Pass1State} (h : pass1Go tr st (a ++ b) = .ok st') :
    ∃ stm, pass1Go tr st a = .ok stm ∧ pass1Go tr stm b = .ok st' := by
  rw [pass1Go_append] at h
  cases hA : pass1Go tr st a with
  | error e => rw [hA] at h; exact Except.noConfusion h
  | ok stm => rw [hA] at h; exact ⟨stm, rfl, h⟩

theorem pass2Go_append_ok {T : TranslatedContent} {st : Pass2State}
    {a b : List IniLine} {st' : Pass2State}
    (h : pass2Go T st (a ++ b) = .ok st') :
    ∃ stm, pass2Go T st a = .ok stm ∧ pass2Go T stm b = .ok st' := by
  rw [pass2Go_append] at h
  cases hA : pass2Go T st a with
  | error e => rw [hA] at h; exact Except.noConfusion h
  | ok stm => rw [hA] at h; exact ⟨stm, rfl, h⟩

/-- C10 (amended): if the same key `k` occurs on two key-value lines with
nonempty values in the same section (no section header between them) and
— the amendment — the section is also not re-opened and `k` not written
again on any LATER line, then the final table holds exactly the second
(last) occurrence's translated value, and pass 2 emits `k=<that value>`
for every key-`k` line it renders in that section (both occurrences show
the last value).  Without the amendment a later duplicate `[s]` header
wipes the entry (see the counterexample). -/
theorem last_write_wins (tr : Tr) (st0 : Pass1State) (Kc1 Kc2 : List Char)
    (l2 l3 : List IniLine) (k v1 v2 : List Char) (stF : Pass1State)
    (hcs : st0.currentSection ≠ [])
    (hk : k ≠ []) (hv1 : v1 ≠ []) (hv2 : v2 ≠ []) (htv2 : trim v2 ≠ [])
    (hl2 : ∀ l ∈ l2, l.type ≠ .sec ∧ l.key ≠ some k)
    (hl3 : ∀ l ∈ l3, l.type ≠ .sec ∧ l.key ≠ some k)
    (hp1 : pass1Go tr st0
        (⟨.key, Kc1, some k, some v1⟩ :: l2 ++ ⟨.key, Kc2, some k, some v2⟩ :: l3)
      = .ok stF) :
    ∃ w2, tr v2 = .ok w2 ∧
      lookupKV stF.table st0.currentSection k = some w2 ∧
      ∀ (Kc v' : List Char), v' ≠ [] →
        ∀ (T : TranslatedContent) (st2 : Pass2State),
        st2.currentSection = st0.currentSection →
        lookupKV T st2.currentSection k = some w2 →
        pass2Step T st2 ⟨.key, Kc, some k, some v'⟩
          = .ok ⟨st2.out ++ [k ++ '=' :: w2], st2.currentSection⟩ := by
  have hguard1 : ¬(k = [] ∨ v1 = []) := by
    rintro (h | h)
    · exact hk h
    · exact hv1 h
  have hguard2 : ¬(k = [] ∨ v2 = []) := by
    rintro (h | h)
    · exact hk h
    · exact hv2 h
  obtain ⟨stA, h1, hrest⟩ := pass1Go_cons_ok hp1
  obtain ⟨stB, h2, hrest2⟩ := pass1Go_append_ok hrest
  obtain ⟨stC, h3, hp1f⟩ := pass1Go_cons_ok hrest2
  have hAcs : stA.currentSection = st0.currentSection := by
    rw [pass1Step_cs h1]
    simp only [csStep]
    rw [if_neg hguard1, if_neg hcs]
  obtain ⟨hBcs, -⟩ := pass1Go_preserve_val hl2 (by rw [hAcs]; exact hcs) h2
  have hBcs0 : stB.currentSection = st0.currentSection := by rw [hBcs, hAcs]
  obtain ⟨w2, hw2, hstore⟩ := pass1Step_store_val h3 hguard2 htv2
  rw [hBcs0, if_neg hcs] at hstore
  have hCcs : stC.currentSection = st0.currentSection := by
    rw [pass1Step_cs h3]
    simp only [csStep]
    rw [if_neg hguard2, hBcs0, if_neg hcs]
  obtain ⟨-, hFval⟩ := pass1Go_preserve_val hl3 (by rw [hCcs]; exact hcs) hp1f
  refine ⟨w2, hw2, ?_, ?_⟩
  · rw [hFval st0.currentSection]
    exact hstore
  · intro Kc v' hv' T st2 hcs2 hTk
    have hguard' : ¬(k = [] ∨ v' = []) := by
      rintro (h | h)
      · exact hk h
      · exact hv' h
    have hcs2ne : ¬(st2.currentSection = []) := by
      rw [hcs2]
      exact hcs
    simp only [pass2Step]
    rw [if_neg hguard']
    simp only [if_neg hcs2ne]
    unfold lookupKV at hTk
    cases hT : T st2.currentSection with
    | none => rw [hT] at hTk; exact Option.noConfusion hTk
    | some m =>
      rw [hT] at hTk
      dsimp only at hTk
      dsimp only
      rw [hTk]
      simp

/-- C10 witness: in section `s`, the lines `a=x` then `a=y` leave
`table["s"]["a"] = "y!"`, and the emit step renders `a=y!`. -/
theorem last_write_wins_witness :
    ∃ stF, pass1Go trEx ⟨setSection emptyTC "s".toList emptyKM, "s".toList⟩
        (⟨.key, "a=x".toList, some "a".toList, some "x".toList⟩ :: [] ++
          ⟨.key, "a=y".toList, some "a".toList, some "y".toList⟩ :: [])
      = .ok stF ∧
    ∃ w2, trEx "y".toList = .ok w2 ∧
      lookupKV stF.table "s".toList "a".toList = some w2 ∧
      ∀ (Kc v' : List Char), v' ≠ [] →
        ∀ (T : TranslatedContent) (st2 : Pass2State),
        st2.currentSection = "s".toList →
        lookupKV T st2.currentSection "a".toList = some w2 →
        pass2Step T st2 ⟨.key, Kc, some "a".toList, some v'⟩
          = .ok ⟨st2.out ++ ["a".toList ++ '=' :: w2], st2.currentSection⟩ := by
  refine ⟨_, rfl, ?_⟩
  exact last_write_wins trEx ⟨setSection emptyTC "s".toList emptyKM, "s".toList⟩
    "a=x".toList "a=y".toList [] [] "a".toList "x".toList "y".toList _
    (by decide) (by decide) (by decide) (by decide) (by decide)
    (fun l hl => absurd hl (List.not_mem_nil l))
    (fun l hl => absurd hl (List.not_mem_nil l)) rfl

/-- C10 counterexample: in `[s] / a=x / a=y / [s] / b=z` the two `a`
lines sit in one section with no re-opening between them, yet the final
table has NO entry for `a` (the later `[s]` cleared it) and both emitted
`a` lines read `a=undefined`, not the last translated value `a=y!`. -/
theorem last_write_wins_cex :
    (pass1Go trEx ⟨emptyTC, []⟩ (parseIniWithComments cexDupKey)).toOption.map
        (fun st => lookupKV st.table "s".toList "a".toList) = some none ∧
    (iniRun trEx cexDupKey).toOption =
      some ["[s]".toList, "a=undefined".toList, "a=undefined".toList,
            "[s]".toList, "b=z!".toList] ∧
    "a=undefined".toList ≠ "a=y!".toList := by
  decide

/-- C2 (amended): for every INI input whose pass 1 succeeds and — the
amendment — whose sequence of section openings (each regex-extracted
header name, plus `"default"` whenever it is implicitly opened) contains
no duplicates, every classified key-value line with nonempty key and
value finds its entry in the Section Table during pass 2, and the line
emitted for it is exactly `<key>=<value from the table>` (preceded by the
synthesized `[default]` header when no section is open yet).  With a
duplicated opening the lookup can instead be `undefined` (see the
counterexample). -/
theorem pass2_lookup_exists_of_nodup_openings
    (content : List Char) (tr : Tr) (stF : Pass1State)
    (pre post : List IniLine) (Kc k v : List Char)
    (hsplit : parseIniWithComments content
      = pre ++ ⟨.key, Kc, some k, some v⟩ :: post)
    (hk : k ≠ []) (hv : v ≠ [])
    (hp1 : pass1Go tr ⟨emptyTC, []⟩ (parseIniWithComments content) = .ok stF)
    (hnodup : (openingsGo [] (parseIniWithComments content)).Nodup) :
    ∃ st2 st2' w,
      pass2Go stF.table ⟨[], []⟩ pre = .ok st2 ∧
      lookupKV stF.table
        (if st2.currentSection = [] then defaultS else st2.currentSection) k
        = some w ∧
      pass2Go stF.table ⟨[], []⟩ (pre ++ [⟨.key, Kc, some k, some v⟩])
        = .ok st2' ∧
      st2'.out = st2.out ++
        (if st2.currentSection = [] then [defaultHeader] else []) ++
        [k ++ '=' :: w] := by
  have hguard : ¬(k = [] ∨ v = []) := by
    rintro (h | h)
    · exact hk h
    · exact hv h
  rw [hsplit] at hp1 hnodup
  obtain ⟨stA, hA, hrest⟩ := pass1Go_append_ok hp1
  obtain ⟨stB, hB, hpost⟩ := pass1Go_cons_ok hrest
  have hAcs : stA.currentSection = csAfter [] pre := pass1Go_cs hA
  have hstore : (lookupKV stB.table
      (if stA.currentSection = [] then defaultS else stA.currentSection)
      k).isSome = true :=
    pass1Step_store_isSome hB hguard
  have hBcs : stB.currentSection
      = (if stA.currentSection = [] then defaultS else stA.currentSection) := by
    rw [pass1Step_cs hB]
    simp only [csStep]
    rw [if_neg hguard]
  rw [openingsGo_append, openingsGo_cons, ← hAcs] at hnodup
  have hcsK : csStep stA.currentSection ⟨.key, Kc, some k, some v⟩
      = (if stA.currentSection = [] then defaultS else stA.currentSection) := by
    simp only [csStep]
    rw [if_neg hguard]
  rw [hcsK] at hnodup
  have hSnotin : (if stA.currentSection = [] then defaultS
      else stA.currentSection) ∉ openingsGo stB.currentSection post := by
    rw [hBcs]
    by_cases hA0 : stA.currentSection = []
    · have hEvt : openEvt stA.currentSection ⟨.key, Kc, some k, some v⟩
          = [if stA.currentSection = [] then defaultS
             else stA.currentSection] := by
        simp only [openEvt]
        rw [if_neg hguard, if_pos hA0, if_pos hA0]
      rw [hEvt] at hnodup
      have h2 := (List.nodup_append.mp hnodup).2.1
      exact (List.nodup_cons.mp h2).1
    · have hEvt : openEvt stA.currentSection ⟨.key, Kc, some k, some v⟩
          = [] := by
        simp only [openEvt]
        rw [if_neg hguard, if_neg hA0]
      rw [hEvt, List.nil_append] at hnodup
      have hmem : (if stA.currentSection = [] then defaultS
          else stA.currentSection) ∈ openingsGo [] pre := by
        rw [if_neg hA0]
        rcases csAfter_self_or_mem pre [] with hcc | hcc
        · exact absurd (hAcs.trans hcc) hA0
        · rw [hAcs]
          exact hcc
      intro hin
      exact (List.nodup_append.mp hnodup).2.2 hmem hin
  have hfin : (lookupKV stF.table
      (if stA.currentSection = [] then defaultS else stA.currentSection)
      k).isSome = true :=
    pass1Go_preserve_isSome hSnotin hpost hstore
  obtain ⟨w, hw⟩ := Option.isSome_iff_exists.mp hfin
  obtain ⟨st2, h2pre, h2cs⟩ := @pass2Go_ok_of_pass1 tr stF.table pre
    ⟨emptyTC, []⟩ stA ⟨[], []⟩ hA rfl
    (fun s hs => pass1Go_opened hpost (pass1Step_opened hB hs))
  have hout : pass2Step stF.table st2 ⟨.key, Kc, some k, some v⟩
      = .ok ⟨st2.out ++
          (if st2.currentSection = [] then [defaultHeader] else []) ++
          [k ++ '=' :: w],
          if st2.currentSection = [] then defaultS
          else st2.currentSection⟩ := by
    simp only [pass2Step]
    rw [if_neg hguard]
    have hw' : lookupKV stF.table
        (if st2.currentSection = [] then defaultS else st2.currentSection) k
        = some w := by
      rw [h2cs]
      exact hw
    unfold lookupKV at hw'
    cases hT : stF.table
        (if st2.currentSection = [] then defaultS
         else st2.currentSection) with
    | none => rw [hT] at hw'; exact Option.noConfusion hw'
    | some m =>
      rw [hT] at hw'
      dsimp only at hw'
      dsimp only
      rw [hw']
  refine ⟨st2,
    ⟨st2.out ++ (if st2.currentSection = [] then [defaultHeader] else []) ++
      [k ++ '=' :: w],
      if st2.currentSection = [] then defaultS else st2.currentSection⟩,
    w, h2pre, ?_, ?_, rfl⟩
  · rw [h2cs]
    exact hw
  · rw [pass2Go_append, h2pre]
    dsimp only
    simp only [pass2Go]
    rw [hout]

/-- C2 witness: the theorem applied to `[s] / a=x` (openings: just `s`;
the lookup succeeds and the emitted line is `a=x!`). -/
theorem pass2_lookup_exists_witness :
    ∃ stF, pass1Go trEx ⟨emptyTC, []⟩ (parseIniWithComments "[s]\na=x".toList)
        = .ok stF ∧
      ∃ st2 st2' w,
        pass2Go stF.table ⟨[], []⟩ [⟨.sec, "[s]".toList, none, none⟩]
          = .ok st2 ∧
        lookupKV stF.table
          (if st2.currentSection = [] then defaultS else st2.currentSection)
          "a".toList = some w ∧
        pass2Go stF.table ⟨[], []⟩
          ([⟨.sec, "[s]".toList, none, none⟩] ++
            [⟨.key, "a=x".toList, some "a".toList, some "x".toList⟩])
          = .ok st2' ∧
        st2'.out = st2.out ++
          (if st2.currentSection = [] then [defaultHeader] else []) ++
          ["a".toList ++ '=' :: w] := by
  refine ⟨_, rfl, ?_⟩
  exact pass2_lookup_exists_of_nodup_openings "[s]\na=x".toList trEx _
    [⟨.sec, "[s]".toList, none, none⟩] [] "a=x".toList "a".toList "x".toList
    (by decide) (by decide) (by decide) rfl (by decide)

/-- C2 counterexample: in `[s] / a=x / [s] / b=y` the pass-2 lookup for
the line `a=x` does NOT exist in the pass-1 table (the duplicate `[s]`
cleared it), and the emitted line is `a=undefined` rather than a value
from the table. -/
theorem pass2_lookup_missing_cex :
    (pass1Go trEx ⟨emptyTC, []⟩ (parseIniWithComments cexReopen)).toOption.map
        (fun st => lookupKV st.table "s".toList "a".toList) = some none ∧
    (iniRun trEx cexReopen).toOption =
      some ["[s]".toList, "a=undefined".toList, "[s]".toList,
            "b=y!".toList] := by
  decide
